import Mathlib

/-!
Verification of the AI-Paraphraser repository's text-diff engine and
in-memory usage/history store, shallowly embedded from the TypeScript
source.  JavaScript strings are modelled as Lean `String`, JavaScript
numbers appearing as integer counters as `Int`/`Nat`, and the single
floating-point expression `Math.round((changedWords / totalWords) * 100)`
is modelled over `ℚ` with `Math.round x = ⌊x + 1/2⌋` (exact for the
integer operands involved here).
-/

namespace AIParaphraser

/-! ### JavaScript string primitives

`s.split(/\s+/)`, `s.trim()` and `s.toLowerCase()` as used by the source.
`\s` is modelled by the ASCII whitespace class. -/

/-- JavaScript whitespace test for the `\s` regex class (ASCII range). -/
def isWs (c : Char) : Bool :=
  c == ' ' || c == '\t' || c == '\n' || c == '\r' || c == '\x0b' || c == '\x0c'

/-- Worker for `jsSplitWs`: `inWs` records whether the scanner is inside a
whitespace run (whose token has already been emitted), `cur` holds the
characters of the current token in reverse. -/
def jsSplitAux : List Char → Bool → List Char → List String
  | [], _, cur => [String.mk cur.reverse]
  | c :: rest, inWs, cur =>
    if isWs c then
      if inWs then jsSplitAux rest true []
      else String.mk cur.reverse :: jsSplitAux rest true []
    else jsSplitAux rest false (c :: cur)

/-- JavaScript `s.split(/\s+/)`: splits at maximal whitespace runs, producing
an empty leading (resp. trailing) token when `s` starts (resp. ends) with
whitespace, and `[""]` on the empty string. -/
def jsSplitWs (s : String) : List String :=
  jsSplitAux s.data false []

/-- JavaScript `s.trim()` on the character list. -/
def trimList (l : List Char) : List Char :=
  (((l.dropWhile isWs).reverse.dropWhile isWs)).reverse

/-- JavaScript `s.trim()`. -/
def jsTrim (s : String) : String :=
  String.mk (trimList s.data)

/-- JavaScript `s.toLowerCase()`, character by character. -/
def jsToLower (s : String) : String :=
  String.mk (s.data.map Char.toLower)

/-! ### Text diff engine (`computeTextDiff`, `calculateChangePercentage`) -/

/-- The `type` field of a `DiffSegment`. -/
inductive SegType where
  | unchanged
  | changed
deriving DecidableEq, Repr

/-- A segment of the diff output (`interface DiffSegment`). -/
structure DiffSegment where
  text : String
  type : SegType
deriving DecidableEq, Repr

/-- The inner `for (let k = i; k < Math.min(i + 5, originalWords.length); k++)`
search of `computeTextDiff`: first index `k` in the five-word window starting
at the cursor `i` whose original word matches `w` case-insensitively. -/
def findMatch (originalWords : List String) (i : Nat) (w : String) : Option Nat :=
  (List.range' i (min (i + 5) originalWords.length - i)).find?
    (fun k => jsToLower (originalWords.getD k "") == jsToLower w)

/-- The `while (j < modifiedWords.length)` loop of `computeTextDiff`,
carrying the cursor `i`, the current segment text, its type, and the emitted
segments. -/
def diffLoop (originalWords : List String) :
    List String → Nat → String → SegType → List DiffSegment → List DiffSegment
  | [], _, cur, curType, segs =>
    if cur = "" then segs else segs ++ [⟨cur, curType⟩]
  | w :: rest, i, cur, curType, segs =>
    let found := findMatch originalWords i w
    let i2 := match found with
      | some k => k + 1
      | none => i
    let wordType := if found.isSome then SegType.unchanged else SegType.changed
    if wordType = curType then
      diffLoop originalWords rest i2 (cur ++ (if cur = "" then "" else " ") ++ w) curType segs
    else
      diffLoop originalWords rest i2 w wordType
        (if cur = "" then segs else segs ++ [⟨cur, curType⟩])

/-- `computeTextDiff(original, modified)` from the source: guard for falsy
(empty) inputs, then the word-level scan. -/
def computeTextDiff (original modified : String) : List DiffSegment :=
  if original = "" ∨ modified = "" then [⟨modified, SegType.unchanged⟩]
  else diffLoop (jsSplitWs original) (jsSplitWs modified) 0 "" SegType.unchanged []

/-- JavaScript `Math.round` on a non-negative rational. -/
def mathRound (q : ℚ) : ℤ := ⌊q + 1 / 2⌋

/-- The `changedWords` accumulator of `calculateChangePercentage`:
`segments.filter(s => s.type === 'changed').reduce((acc, s) => acc + s.text.split(/\s+/).length, 0)`. -/
def changedWordTotal (original modified : String) : Nat :=
  ((computeTextDiff original modified).filter (fun s => s.type == SegType.changed)).foldl
    (fun acc s => acc + (jsSplitWs s.text).length) 0

/-- `calculateChangePercentage(original, modified)` from the source. -/
def calculateChangePercentage (original modified : String) : ℤ :=
  if original = "" ∨ modified = "" then 0
  else
    let changedWords := changedWordTotal original modified
    let totalWords := (jsSplitWs (jsTrim modified)).length
    if totalWords > 0 then mathRound ((changedWords : ℚ) / (totalWords : ℚ) * 100) else 0

/-- `countWords(text)` from `server/lib/openai.ts`:
`text.trim() ? text.trim().split(/\s+/).length : 0`. -/
def countWords (text : String) : Nat :=
  if jsTrim text = "" then 0 else (jsSplitWs (jsTrim text)).length

example : jsSplitWs "a " = ["a", ""] := by decide
example : jsSplitWs " a" = ["", "a"] := by decide
example : jsSplitWs "a  b" = ["a", "b"] := by decide
example : jsSplitWs "" = [""] := by decide
example : jsTrim " a b " = "a b" := by decide
example : computeTextDiff "The cat sat on mat" "The dog sat on mat" =
    [⟨"The", SegType.unchanged⟩, ⟨"dog", SegType.changed⟩,
     ⟨"sat on mat", SegType.unchanged⟩] := by decide
example : computeTextDiff "a " " a" = [⟨"a", SegType.changed⟩] := by decide
example : countWords "  hello   world " = 2 := by decide

/-- `jsSplitAux` always returns at least one token. -/
theorem jsSplitAux_ne_nil (l : List Char) (b : Bool) (cur : List Char) :
    jsSplitAux l b cur ≠ [] := by
  induction l generalizing b cur with
  | nil => simp [jsSplitAux]
  | cons c rest ih =>
    simp only [jsSplitAux]
    by_cases hc : isWs c
    · by_cases hb : b <;> simp [hc, hb, ih]
    · simp [hc, ih]

/-- `s.split(/\s+/)` is never the empty array. -/
theorem jsSplitWs_length_pos (s : String) : 0 < (jsSplitWs s).length :=
  List.length_pos.mpr (jsSplitAux_ne_nil s.data false [])

/-- `Math.round((c / t) * 100)` for natural operands with `t > 0` is the
natural division `(200 * c + t) / (2 * t)`. -/
theorem mathRound_ratio (c t : ℕ) (ht : 0 < t) :
    mathRound ((c : ℚ) / (t : ℚ) * 100) = (((200 * c + t) / (2 * t) : ℕ) : ℤ) := by
  have htq : (t : ℚ) ≠ 0 := Nat.cast_ne_zero.mpr ht.ne'
  have h1 : (c : ℚ) / (t : ℚ) * 100 + 1 / 2
      = ((((200 * c + t : ℕ) : ℤ) : ℚ)) / ((2 * t : ℕ) : ℚ) := by
    push_cast
    field_simp
    ring
  rw [mathRound, h1, Rat.floor_intCast_div_natCast]
  push_cast
  rfl

/-- Evaluation form of `calculateChangePercentage` on non-empty inputs. -/
theorem calculateChangePercentage_eval (o m : String) (ho : o ≠ "") (hm : m ≠ "") :
    calculateChangePercentage o m =
      (((200 * changedWordTotal o m + (jsSplitWs (jsTrim m)).length) /
        (2 * (jsSplitWs (jsTrim m)).length) : ℕ) : ℤ) := by
  have ht := jsSplitWs_length_pos (jsTrim m)
  rw [calculateChangePercentage]
  simp only [ho, hm, or_self, if_false, ht, if_pos, if_neg, not_or]
  exact mathRound_ratio _ _ ht

example : calculateChangePercentage "x" "a " = 200 := by
  rw [calculateChangePercentage_eval _ _ (by decide) (by decide)]; decide
example : calculateChangePercentage "a b c d" "w x y z" = 100 := by
  rw [calculateChangePercentage_eval _ _ (by decide) (by decide)]; decide
example : calculateChangePercentage "a b c d" "a b c d" = 0 := by
  rw [calculateChangePercentage_eval _ _ (by decide) (by decide)]; decide

/-! ### Spec-side description of the diff algorithm

These definitions follow the specification's words: the inputs are "split on
runs of whitespace" into words, the modified words are classified with the
five-word window and forward-only cursor, and consecutive words of equal
classification are joined with single spaces into segments. -/

/-- Spec-side whitespace split: the maximal whitespace-separated words of a
string, with no empty tokens.  `cur` holds the current word reversed. -/
def specWordsAux : List Char → List Char → List String
  | [], cur => if cur = [] then [] else [String.mk cur.reverse]
  | c :: rest, cur =>
    if isWs c then
      if cur = [] then specWordsAux rest []
      else String.mk cur.reverse :: specWordsAux rest []
    else specWordsAux rest (c :: cur)

/-- Spec-side whitespace split of a string. -/
def specWords (s : String) : List String :=
  specWordsAux s.data []

/-- Spec-side classification scan: each modified word is paired with
`unchanged` when a case-insensitive match exists in the five-word window at
the cursor (which then advances past the first match), `changed` otherwise. -/
def classifyWords (originalWords : List String) : Nat → List String → List (String × SegType)
  | _, [] => []
  | i, w :: ws =>
    match findMatch originalWords i w with
    | some k => (w, SegType.unchanged) :: classifyWords originalWords (k + 1) ws
    | none => (w, SegType.changed) :: classifyWords originalWords i ws

/-- Prepend a classified word to a grouped segment list, merging it into the
first segment when the classification agrees (single-space join). -/
def attachSeg (w : String) (t : SegType) : List DiffSegment → List DiffSegment
  | [] => [⟨w, t⟩]
  | g :: gs => if g.type = t then ⟨w ++ " " ++ g.text, t⟩ :: gs else ⟨w, t⟩ :: g :: gs

/-- Join consecutive words of equal classification with single spaces into
segments, in order. -/
def groupSegs : List (String × SegType) → List DiffSegment
  | [] => []
  | (w, t) :: rest => attachSeg w t (groupSegs rest)

/-- The diff procedure exactly as the specification describes it. -/
def specComputeTextDiff (original modified : String) : List DiffSegment :=
  if original = "" ∨ modified = "" then [⟨modified, SegType.unchanged⟩]
  else groupSegs (classifyWords (specWords original) 0 (specWords modified))

example : specWords " a  b " = ["a", "b"] := by decide
example : specComputeTextDiff "The cat sat on mat" "The dog sat on mat" =
    [⟨"The", SegType.unchanged⟩, ⟨"dog", SegType.changed⟩,
     ⟨"sat on mat", SegType.unchanged⟩] := by decide
example : specComputeTextDiff "a " " a" = [⟨"a", SegType.unchanged⟩] := by decide

/-! ### Relating the source diff to the spec description -/

/-- A string is non-empty with neither a leading nor a trailing whitespace
character. -/
def noEdgeWs (s : String) : Bool :=
  !s.data.isEmpty &&
  (match s.data.head? with
   | some c => !isWs c
   | none => false) &&
  (match s.data.getLast? with
   | some c => !isWs c
   | none => false)

theorem noEdgeWs_spec {s : String} (h : noEdgeWs s = true) :
    s ≠ "" ∧ (∀ c, s.data.head? = some c → isWs c = false) ∧
      (∀ c, s.data.getLast? = some c → isWs c = false) := by
  rw [noEdgeWs, Bool.and_eq_true, Bool.and_eq_true] at h
  obtain ⟨⟨h1, h2⟩, h3⟩ := h
  refine ⟨?_, ?_, ?_⟩
  · intro he
    subst he
    simp at h1
  · intro c hc
    rw [hc] at h2
    simpa using h2
  · intro c hc
    rw [hc] at h3
    simpa using h3

theorem mk_ne_empty {l : List Char} (h : l ≠ []) : String.mk l ≠ "" := by
  intro he
  exact h (by simpa using congrArg String.data he)

theorem append_ne_empty_left {a : String} (b : String) (h : a ≠ "") : a ++ b ≠ "" := by
  intro he
  have hd := congrArg String.data he
  simp only [String.data_append] at hd
  exact h (String.ext (by simpa using (List.append_eq_nil.mp (by simpa using hd)).1))

/-- Every word produced by the spec-side split is non-empty. -/
theorem specWordsAux_ne_empty (l : List Char) (cur : List Char) :
    ∀ w ∈ specWordsAux l cur, w ≠ "" := by
  induction l generalizing cur with
  | nil =>
    intro w hw
    by_cases hc : cur = []
    · simp [specWordsAux, hc] at hw
    · simp only [specWordsAux, if_neg hc, List.mem_singleton] at hw
      subst hw
      exact mk_ne_empty (by simpa using hc)
  | cons c rest ih =>
    intro w hw
    by_cases hws : isWs c = true
    · by_cases hc : cur = []
      · simp only [specWordsAux, hws, if_true, hc, if_pos] at hw
        exact ih [] w hw
      · simp only [specWordsAux, hws, if_true, if_neg hc, List.mem_cons] at hw
        rcases hw with rfl | hw
        · exact mk_ne_empty (by simpa using hc)
        · exact ih [] w hw
    · simp only [specWordsAux, hws, Bool.false_eq_true, if_false] at hw
      exact ih (c :: cur) w hw

theorem jsSplitAux_cons (c : Char) (rest : List Char) (b : Bool) (cur : List Char) :
    jsSplitAux (c :: rest) b cur =
      if isWs c = true then
        (if b = true then jsSplitAux rest true []
         else String.mk cur.reverse :: jsSplitAux rest true [])
      else jsSplitAux rest false (c :: cur) := by
  cases b <;> by_cases hc : isWs c = true <;> simp [jsSplitAux, hc]

theorem specWordsAux_cons (c : Char) (rest : List Char) (cur : List Char) :
    specWordsAux (c :: rest) cur =
      if isWs c = true then
        (if cur = [] then specWordsAux rest []
         else String.mk cur.reverse :: specWordsAux rest [])
      else specWordsAux rest (c :: cur) := by
  by_cases hc : isWs c = true <;> by_cases hcur : cur = [] <;>
    simp [specWordsAux, hc, hcur]

/-- On input with no trailing whitespace, the JavaScript split agrees with the
spec-side split, provided the scanner state is consistent: inside a whitespace
run the current token is empty, and at a whitespace character outside a run the
current token is non-empty. -/
theorem jsSplitAux_eq_specWordsAux (l : List Char) (b : Bool) (cur : List Char)
    (hne : l ≠ []) (hlast : ∀ c, l.getLast? = some c → isWs c = false)
    (hb : b = true → cur = [])
    (hhead : b = false → ∀ c, l.head? = some c → isWs c = true → cur ≠ []) :
    jsSplitAux l b cur = specWordsAux l cur := by
  induction l generalizing b cur with
  | nil => exact absurd rfl hne
  | cons c rest ih =>
    cases rest with
    | nil =>
      have hc : isWs c = false := hlast c (by simp)
      simp [jsSplitAux, specWordsAux, hc]
    | cons d ds =>
      have hlast2 : ∀ x, (d :: ds).getLast? = some x → isWs x = false := by
        intro x hx
        exact hlast x (by simpa using hx)
      rw [jsSplitAux_cons, specWordsAux_cons]
      by_cases hc : isWs c = true
      · have hrec := ih true [] (by simp) hlast2 (fun _ => rfl) (by intro h; cases h)
        cases b with
        | true =>
          have hcur := hb rfl
          simp only [hc, if_true, hcur, if_pos rfl]
          exact hrec
        | false =>
          have hcur : cur ≠ [] := hhead rfl c (by simp) hc
          simp only [hc, if_true, if_neg hcur, Bool.false_eq_true, if_false]
          rw [hrec]
      · simp only [hc, Bool.false_eq_true, if_false]
        exact ih false (c :: cur) (by simp) hlast2 (by intro h; cases h)
          (fun _ x hx hws => by simp)

/-- For inputs without leading or trailing whitespace, `split(/\s+/)` yields
exactly the whitespace-separated words. -/
theorem jsSplitWs_eq_specWords {s : String} (h : noEdgeWs s = true) :
    jsSplitWs s = specWords s := by
  obtain ⟨hne, hhead, hlast⟩ := noEdgeWs_spec h
  have hdata : s.data ≠ [] := by
    intro hd
    exact hne (String.ext (by simpa using hd))
  refine jsSplitAux_eq_specWordsAux s.data false [] hdata hlast (by intro h; cases h) ?_
  intro _ c hc hws
  rw [hhead c hc] at hws
  cases hws

theorem string_append_assoc (a b c : String) : (a ++ b) ++ c = a ++ (b ++ c) :=
  String.ext (by simp)

theorem empty_append_str (a : String) : "" ++ a = a :=
  String.ext (by simp)

/-- The first segment produced by `attachSeg w t` always has type `t`. -/
theorem attachSeg_shape (w : String) (t : SegType) (G : List DiffSegment) :
    ∃ s rest, attachSeg w t G = DiffSegment.mk s t :: rest := by
  cases G with
  | nil => exact ⟨w, [], rfl⟩
  | cons g gs =>
    by_cases hg : g.type = t
    · exact ⟨w ++ " " ++ g.text, gs, by simp [attachSeg, hg]⟩
    · exact ⟨w, g :: gs, by simp [attachSeg, hg]⟩

/-- Merging a space-joined pair into a group equals merging the parts one at
a time. -/
theorem attachSeg_append (c w : String) (t : SegType) (G : List DiffSegment) :
    attachSeg (c ++ " " ++ w) t G = attachSeg c t (attachSeg w t G) := by
  cases G with
  | nil => simp [attachSeg]
  | cons g gs =>
    by_cases hg : g.type = t
    · simp [attachSeg, hg, string_append_assoc]
    · simp [attachSeg, hg]

/-- Prepending a word of a different classification starts a new segment. -/
theorem attachSeg_ne (cur w : String) (t wt : SegType) (G : List DiffSegment)
    (h : wt ≠ t) :
    attachSeg cur t (attachSeg w wt G) = DiffSegment.mk cur t :: attachSeg w wt G := by
  obtain ⟨s, rest, hsr⟩ := attachSeg_shape w wt G
  rw [hsr]
  simp [attachSeg, h]

theorem diffLoop_cons (ow : List String) (w : String) (rest : List String) (i : Nat)
    (cur : String) (t : SegType) (segs : List DiffSegment) :
    diffLoop ow (w :: rest) i cur t segs =
      if (if (findMatch ow i w).isSome then SegType.unchanged else SegType.changed) = t then
        diffLoop ow rest (match findMatch ow i w with | some k => k + 1 | none => i)
          (cur ++ (if cur = "" then "" else " ") ++ w) t segs
      else
        diffLoop ow rest (match findMatch ow i w with | some k => k + 1 | none => i) w
          (if (findMatch ow i w).isSome then SegType.unchanged else SegType.changed)
          (if cur = "" then segs else segs ++ [⟨cur, t⟩]) := rfl

theorem classifyWords_cons (ow : List String) (i : Nat) (w : String) (ws : List String) :
    classifyWords ow i (w :: ws) =
      match findMatch ow i w with
      | some k => (w, SegType.unchanged) :: classifyWords ow (k + 1) ws
      | none => (w, SegType.changed) :: classifyWords ow i ws := rfl

/-- The running-segment accumulation of the source loop computes the
classify-then-group description, for non-empty words and a non-empty current
segment. -/
theorem diffLoop_eq_groupSegs (ow : List String) (ws : List String) :
    ∀ (i : Nat) (cur : String) (t : SegType) (segs : List DiffSegment),
      cur ≠ "" → (∀ w ∈ ws, w ≠ "") →
      diffLoop ow ws i cur t segs = segs ++ attachSeg cur t (groupSegs (classifyWords ow i ws)) := by
  induction ws with
  | nil =>
    intro i cur t segs hcur _
    simp [diffLoop, hcur, classifyWords, groupSegs, attachSeg]
  | cons w rest ih =>
    intro i cur t segs hcur hws
    have hw : w ≠ "" := hws w (by simp)
    have hrest : ∀ x ∈ rest, x ≠ "" := fun x hx => hws x (by simp [hx])
    rw [diffLoop_cons, classifyWords_cons]
    cases hm : findMatch ow i w with
    | some k =>
      simp only [hm, Option.isSome_some, if_true, if_neg hcur]
      by_cases ht : SegType.unchanged = t
      · subst ht
        rw [if_pos rfl, ih (k + 1) (cur ++ " " ++ w) SegType.unchanged segs
          (append_ne_empty_left w (append_ne_empty_left " " hcur)) hrest]
        simp [groupSegs, attachSeg_append]
      · rw [if_neg ht,
          ih (k + 1) w SegType.unchanged (segs ++ [DiffSegment.mk cur t]) hw hrest]
        simp only [groupSegs]
        rw [attachSeg_ne cur w t SegType.unchanged _ ht]
        simp
    | none =>
      simp only [hm, Option.isSome_none, Bool.false_eq_true, if_false, if_neg hcur]
      by_cases ht : SegType.changed = t
      · subst ht
        rw [if_pos rfl, ih i (cur ++ " " ++ w) SegType.changed segs
          (append_ne_empty_left w (append_ne_empty_left " " hcur)) hrest]
        simp [groupSegs, attachSeg_append]
      · rw [if_neg ht,
          ih i w SegType.changed (segs ++ [DiffSegment.mk cur t]) hw hrest]
        simp only [groupSegs]
        rw [attachSeg_ne cur w t SegType.changed _ ht]
        simp

/-- Starting state of the loop: empty current segment, no emitted segments. -/
theorem diffLoop_start (ow : List String) (ws : List String) (i : Nat) (t : SegType)
    (hws : ∀ w ∈ ws, w ≠ "") :
    diffLoop ow ws i "" t [] = groupSegs (classifyWords ow i ws) := by
  cases ws with
  | nil => simp [diffLoop, classifyWords, groupSegs]
  | cons w rest =>
    have hw : w ≠ "" := hws w (by simp)
    have hrest : ∀ x ∈ rest, x ≠ "" := fun x hx => hws x (by simp [hx])
    rw [diffLoop_cons, classifyWords_cons]
    cases hm : findMatch ow i w with
    | some k =>
      simp only [hm, Option.isSome_some, if_true, empty_append_str]
      by_cases ht : SegType.unchanged = t
      · subst ht
        rw [if_pos rfl,
          diffLoop_eq_groupSegs ow rest (k + 1) w SegType.unchanged [] hw hrest]
        simp [groupSegs]
      · rw [if_neg ht,
          diffLoop_eq_groupSegs ow rest (k + 1) w SegType.unchanged [] hw hrest]
        simp [groupSegs]
    | none =>
      simp only [hm, Option.isSome_none, Bool.false_eq_true, if_false, if_true,
        empty_append_str]
      by_cases ht : SegType.changed = t
      · subst ht
        rw [if_pos rfl,
          diffLoop_eq_groupSegs ow rest i w SegType.changed [] hw hrest]
        simp [groupSegs]
      · rw [if_neg ht,
          diffLoop_eq_groupSegs ow rest i w SegType.changed [] hw hrest]
        simp [groupSegs]

/-- On inputs with no leading or trailing whitespace, the source diff equals
the specified classify-and-group procedure. -/
theorem computeTextDiff_eq_spec {o m : String} (ho : noEdgeWs o = true)
    (hm : noEdgeWs m = true) :
    computeTextDiff o m = specComputeTextDiff o m := by
  have hone := (noEdgeWs_spec ho).1
  have hmne := (noEdgeWs_spec hm).1
  rw [computeTextDiff, specComputeTextDiff,
    if_neg (by simp [hone, hmne]), if_neg (by simp [hone, hmne]),
    jsSplitWs_eq_specWords ho, jsSplitWs_eq_specWords hm]
  exact diffLoop_start _ _ 0 SegType.unchanged (specWordsAux_ne_empty m.data [])

/-! ### Whitespace-only inputs -/

theorem str_append_empty (a : String) : a ++ "" = a :=
  String.ext (by simp)

/-- `dropWhile isWs` leaves a list whose head is not whitespace, so if every
remaining character is whitespace the remainder is empty. -/
theorem dropWhile_allWs_nil (l : List Char)
    (h : ∀ c ∈ l.dropWhile isWs, isWs c = true) : l.dropWhile isWs = [] := by
  induction l with
  | nil => rfl
  | cons c rest ih =>
    by_cases hc : isWs c = true
    · rw [List.dropWhile_cons_of_pos hc] at h ⊢
      exact ih h
    · rw [List.dropWhile_cons_of_neg (by simp [hc])] at h
      exact absurd (h c (by simp)) (by simp [hc])

/-- If trimming removes everything, every character was whitespace. -/
theorem trimList_eq_nil_allWs {l : List Char} (h : trimList l = []) :
    ∀ c ∈ l, isWs c = true := by
  rw [trimList] at h
  have h1 : (l.dropWhile isWs).reverse.dropWhile isWs = [] := by simpa using h
  have h2 : ∀ c ∈ (l.dropWhile isWs).reverse, isWs c = true :=
    List.dropWhile_eq_nil_iff.mp h1
  have h4 : l.dropWhile isWs = [] :=
    dropWhile_allWs_nil l (fun c hc => h2 c (by simpa using hc))
  exact List.dropWhile_eq_nil_iff.mp h4

/-- Splitting an all-whitespace string produces only empty tokens. -/
theorem allWs_jsSplitAux (l : List Char) (hl : ∀ c ∈ l, isWs c = true) :
    ∀ b : Bool, ∀ w ∈ jsSplitAux l b [], w = "" := by
  induction l with
  | nil =>
    intro b w hw
    simp only [jsSplitAux, List.reverse_nil, List.mem_singleton] at hw
    subst hw
    decide
  | cons c rest ih =>
    intro b w hw
    have hc : isWs c = true := hl c (by simp)
    have hrest : ∀ x ∈ rest, isWs x = true := fun x hx => hl x (by simp [hx])
    rw [jsSplitAux_cons, if_pos hc] at hw
    cases b with
    | true => exact ih hrest true w (by simpa using hw)
    | false =>
      simp only [Bool.false_eq_true, if_false, List.reverse_nil, List.mem_cons] at hw
      rcases hw with rfl | hw
      · decide
      · exact ih hrest true w hw

/-- The loop never emits a segment when every word is empty and the current
segment is empty. -/
theorem diffLoop_empty_words (ow : List String) (ws : List String)
    (h : ∀ w ∈ ws, w = "") :
    ∀ (i : Nat) (t : SegType) (segs : List DiffSegment),
      diffLoop ow ws i "" t segs = segs := by
  induction ws with
  | nil => intro i t segs; simp [diffLoop]
  | cons w rest ih =>
    intro i t segs
    have hw : w = "" := h w (by simp)
    have hrest : ∀ x ∈ rest, x = "" := fun x hx => h x (by simp [hx])
    subst hw
    rw [diffLoop_cons]
    by_cases ht :
        (if (findMatch ow i "").isSome then SegType.unchanged else SegType.changed) = t
    · rw [if_pos ht, if_pos rfl, empty_append_str, str_append_empty]
      exact ih hrest _ t segs
    · rw [if_neg ht, if_pos rfl]
      exact ih hrest _ _ segs

/-- The diff of a whitespace-only modified string against a non-empty original
is empty. -/
theorem computeTextDiff_allWs (o m : String) (ho : o ≠ "") (hm : m ≠ "")
    (h : ∀ c ∈ m.data, isWs c = true) : computeTextDiff o m = [] := by
  rw [computeTextDiff, if_neg (by simp [ho, hm])]
  exact diffLoop_empty_words _ _ (allWs_jsSplitAux m.data h false) 0 SegType.unchanged []

/-! ### Spec-side description of `calculateChangePercentage` -/

/-- The percentage exactly as the specification words it: the summed word
counts of `changed` segments over the total word count of the modified text,
times 100, rounded; 0 when the modified text has no words. -/
def specChangePct (original modified : String) : ℤ :=
  if countWords modified = 0 then 0
  else mathRound
    ((changedWordTotal original modified : ℚ) / (countWords modified : ℚ) * 100)

/-- The source implementation agrees with the specified formula everywhere. -/
theorem calculateChangePercentage_eq_spec (o m : String) :
    calculateChangePercentage o m = specChangePct o m := by
  by_cases hm0 : countWords m = 0
  · rw [specChangePct, if_pos hm0]
    by_cases hme : m = ""
    · rw [calculateChangePercentage, if_pos (Or.inr hme)]
    · by_cases hoe : o = ""
      · rw [calculateChangePercentage, if_pos (Or.inl hoe)]
      · have htr : jsTrim m = "" := by
          by_contra hne
          rw [countWords, if_neg hne] at hm0
          exact absurd hm0 (jsSplitWs_length_pos (jsTrim m)).ne'
        have hall : ∀ c ∈ m.data, isWs c = true := by
          apply trimList_eq_nil_allWs
          simpa using congrArg String.data htr
        have hcw : changedWordTotal o m = 0 := by
          rw [changedWordTotal, computeTextDiff_allWs o m hoe hme hall]
          rfl
        rw [calculateChangePercentage_eval o m hoe hme, hcw]
        have hL := jsSplitWs_length_pos (jsTrim m)
        rw [Nat.div_eq_of_lt (by omega)]
        simp
  · rw [specChangePct, if_neg hm0]
    have hme : m ≠ "" := by
      intro he
      subst he
      exact hm0 (by decide)
    have htr : jsTrim m ≠ "" := by
      intro h
      rw [countWords, if_pos h] at hm0
      exact hm0 rfl
    have hcount : countWords m = (jsSplitWs (jsTrim m)).length := by
      rw [countWords, if_neg htr]
    by_cases hoe : o = ""
    · rw [calculateChangePercentage, if_pos (Or.inl hoe)]
      have hcw : changedWordTotal "" m = 0 := by
        rw [changedWordTotal, computeTextDiff, if_pos (Or.inl rfl)]
        rfl
      rw [hoe, hcw]
      norm_num [mathRound]
    · rw [calculateChangePercentage_eval o m hoe hme, hcount]
      exact (mathRound_ratio _ _ (jsSplitWs_length_pos _)).symm

/-! ### In-memory storage (`server/storage.ts`, class `MemStorage`)

The history `Map` is modelled as a list in insertion order: JavaScript `Map`
preserves insertion order and its UUID keys are unique, which the model
realises by drawing ids from the counter `nextId`.  ISO timestamps and
calendar date strings are modelled by naturals (`createdAt` ordering and
date equality are all the source uses). -/

/-- `HistoryItem` of `shared/schema.ts`. -/
structure HistoryItem where
  id : Nat
  originalText : String
  paraphrasedText : String
  mode : String
  wordCount : Nat
  createdAt : Nat
deriving DecidableEq, Repr

/-- The argument of `addToHistory` (`Omit<HistoryItem, "id" | "createdAt">`). -/
structure NewHistoryItem where
  originalText : String
  paraphrasedText : String
  mode : String
  wordCount : Nat
deriving DecidableEq, Repr

/-- `UsageStats` returned by `getUsageStats` / `addWordsUsed`. -/
structure UsageStats where
  wordsUsedToday : Int
  dailyLimit : Int
  resetTime : Nat
deriving DecidableEq, Repr

/-- The private fields of `MemStorage` used by the claims. -/
structure MemState where
  history : List HistoryItem
  nextId : Nat
  wordsUsedToday : Int
  lastResetDate : Nat
deriving DecidableEq, Repr

def DAILY_WORD_LIMIT : Int := 5000

/-- The constructor state: empty maps, zero counter, reset date = today. -/
def initState (d : Nat) : MemState := ⟨[], 0, 0, d⟩

/-- `checkAndResetDaily()`: lazily roll the counter over when the calendar
date has changed. -/
def checkAndResetDaily (s : MemState) (today : Nat) : MemState :=
  if today ≠ s.lastResetDate then
    { s with wordsUsedToday := 0, lastResetDate := today }
  else s

/-- `getUsageStats()`: rollover check, then read.  `resetTime` ("tomorrow at
midnight") is modelled as the next calendar date. -/
def getUsageStats (s : MemState) (today : Nat) : MemState × UsageStats :=
  let s1 := checkAndResetDaily s today
  (s1, ⟨s1.wordsUsedToday, DAILY_WORD_LIMIT, today + 1⟩)

/-- `addWordsUsed(count)`: rollover check, add, return updated stats. -/
def addWordsUsed (s : MemState) (today : Nat) (count : Int) : MemState × UsageStats :=
  let s1 := checkAndResetDaily s today
  let s2 := { s1 with wordsUsedToday := s1.wordsUsedToday + count }
  getUsageStats s2 today

/-- `resetDailyUsage()`. -/
def resetDailyUsage (s : MemState) (today : Nat) : MemState :=
  { s with wordsUsedToday := 0, lastResetDate := today }

/-- `sort((a, b) => ... a.createdAt ... - ... b.createdAt ...)`: stable
ascending sort by creation time, used to pick the eviction victim.
`Array.prototype.sort` is stable; it is modelled by a stable sort. -/
def sortByCreatedAsc (l : List HistoryItem) : List HistoryItem :=
  l.insertionSort (fun a b => a.createdAt ≤ b.createdAt)

/-- `sort((a, b) => ... b.createdAt ... - ... a.createdAt ...)`: stable
descending sort by creation time, used by `getHistory`. -/
def sortByCreatedDesc (l : List HistoryItem) : List HistoryItem :=
  l.insertionSort (fun a b => b.createdAt ≤ a.createdAt)

instance : IsTotal HistoryItem (fun a b => a.createdAt ≤ b.createdAt) :=
  ⟨fun a b => Nat.le_total a.createdAt b.createdAt⟩

instance : IsTrans HistoryItem (fun a b => a.createdAt ≤ b.createdAt) :=
  ⟨fun _ _ _ hab hbc => Nat.le_trans hab hbc⟩

instance : IsTotal HistoryItem (fun a b => b.createdAt ≤ a.createdAt) :=
  ⟨fun a b => Nat.le_total b.createdAt a.createdAt⟩

instance : IsTrans HistoryItem (fun a b => b.createdAt ≤ a.createdAt) :=
  ⟨fun _ _ _ hab hbc => Nat.le_trans hbc hab⟩

/-- `getHistory()`: all entries, newest first. -/
def getHistory (s : MemState) : List HistoryItem :=
  sortByCreatedDesc s.history

/-- `addToHistory(item)`: assign a fresh id and the current timestamp,
insert, and when the map exceeds 50 entries delete the key of the first
entry of the ascending-by-`createdAt` sort. -/
def addToHistory (s : MemState) (item : NewHistoryItem) (now : Nat) :
    MemState × HistoryItem :=
  let hi : HistoryItem :=
    ⟨s.nextId, item.originalText, item.paraphrasedText, item.mode, item.wordCount, now⟩
  let h1 := s.history ++ [hi]
  let h2 :=
    if h1.length > 50 then
      match (sortByCreatedAsc h1).head? with
      | some oldest => h1.filter (fun x => x.id != oldest.id)
      | none => h1
    else h1
  ({ s with history := h2, nextId := s.nextId + 1 }, hi)

/-- `deleteHistoryItem(id)`: `Map.delete` — removes the entry with that key
and reports whether one was present. -/
def deleteHistoryItem (s : MemState) (id : Nat) : MemState × Bool :=
  ({ s with history := s.history.filter (fun x => x.id != id) },
   s.history.any (fun x => x.id == id))

/-- `clearHistory()`. -/
def clearHistory (s : MemState) : MemState :=
  { s with history := [] }

/-- The store operations that mutate the history, with their clock inputs. -/
inductive HOp where
  | record (item : NewHistoryItem) (now : Nat)
  | del (id : Nat)
  | clear
deriving DecidableEq, Repr

def applyOp (s : MemState) : HOp → MemState
  | .record item now => (addToHistory s item now).1
  | .del id => (deleteHistoryItem s id).1
  | .clear => clearHistory s

def runOps (s : MemState) (ops : List HOp) : MemState :=
  ops.foldl applyOp s

example :
    (addToHistory (initState 0) ⟨"a", "b", "standard", 2⟩ 7).2 =
      ⟨0, "a", "b", "standard", 2, 7⟩ := by decide
example : (deleteHistoryItem (initState 0) 3).2 = false := by decide

/-! ### Basic facts about the history operations -/

theorem length_filter_lt {α : Type} (p : α → Bool) (l : List α) (a : α)
    (ha : a ∈ l) (hpa : p a = false) : (l.filter p).length < l.length := by
  induction l with
  | nil => cases ha
  | cons x xs ih =>
    rcases List.mem_cons.mp ha with rfl | hmem
    · rw [List.filter_cons, hpa]
      exact Nat.lt_succ_of_le (List.length_filter_le p xs)
    · rw [List.filter_cons]
      by_cases hp : p x = true
      · rw [if_pos hp]
        simpa using Nat.succ_lt_succ (ih hmem)
      · rw [if_neg hp]
        exact Nat.lt_succ_of_lt (ih hmem)

/-- Deleting the key of a present entry from a history with unique ids
shortens it by exactly one. -/
theorem filter_ne_id_length (l : List HistoryItem) (a : HistoryItem)
    (hnd : (l.map HistoryItem.id).Nodup) (ha : a ∈ l) :
    (l.filter (fun x => x.id != a.id)).length = l.length - 1 := by
  induction l with
  | nil => cases ha
  | cons x xs ih =>
    rw [List.map_cons, List.nodup_cons] at hnd
    rcases List.mem_cons.mp ha with rfl | hmem
    · have hxs : xs.filter (fun y => y.id != a.id) = xs := by
        rw [List.filter_eq_self]
        intro y hy
        simp only [bne_iff_ne, ne_eq]
        intro he
        exact hnd.1 (by rw [← he]; exact List.mem_map_of_mem _ hy)
      simp [List.filter_cons, hxs]
    · have hne : (x.id != a.id) = true := by
        simp only [bne_iff_ne, ne_eq]
        intro he
        exact hnd.1 (he ▸ List.mem_map_of_mem _ hmem)
      rw [List.filter_cons, if_pos hne]
      have hpos : 0 < xs.length := List.length_pos.mpr (List.ne_nil_of_mem hmem)
      have := ih hnd.2 hmem
      simp only [List.length_cons]
      omega

theorem sortAsc_perm (l : List HistoryItem) : (sortByCreatedAsc l).Perm l :=
  List.perm_insertionSort _ l

theorem sortDesc_perm (l : List HistoryItem) : (sortByCreatedDesc l).Perm l :=
  List.perm_insertionSort _ l

theorem sortAsc_sorted (l : List HistoryItem) :
    (sortByCreatedAsc l).Pairwise (fun a b => a.createdAt ≤ b.createdAt) :=
  List.sorted_insertionSort _ l

theorem sortDesc_sorted (l : List HistoryItem) :
    (sortByCreatedDesc l).Pairwise (fun a b => b.createdAt ≤ a.createdAt) :=
  List.sorted_insertionSort _ l

/-- In a list whose creation times are strictly increasing, an item is
determined by its creation time. -/
theorem pairwise_lt_unique {l : List HistoryItem}
    (h : l.Pairwise (fun a b => a.createdAt < b.createdAt)) :
    ∀ a ∈ l, ∀ b ∈ l, a.createdAt = b.createdAt → a = b := by
  induction l with
  | nil => intro a ha; cases ha
  | cons x xs ih =>
    rw [List.pairwise_cons] at h
    intro a ha b hb he
    rcases List.mem_cons.mp ha with rfl | ha₂ <;>
      rcases List.mem_cons.mp hb with rfl | hb₂
    · rfl
    · exact absurd (h.1 b hb₂) (by omega)
    · exact absurd (h.1 a ha₂) (by omega)
    · exact ih h.2 a ha₂ b hb₂ he

/-- Sorting a strictly-ascending history newest-first reverses it. -/
theorem sortDesc_of_ascending (l : List HistoryItem)
    (h : l.Pairwise (fun a b => a.createdAt < b.createdAt)) :
    sortByCreatedDesc l = l.reverse := by
  have huniq := pairwise_lt_unique h
  apply @List.Perm.eq_of_sorted HistoryItem
    (fun a b : HistoryItem => b.createdAt ≤ a.createdAt) _ _
  · intro a b ha hb hab hba
    have ha₂ : a ∈ l := (sortDesc_perm l).subset ha
    have hb₂ : b ∈ l := List.mem_reverse.mp hb
    exact huniq a ha₂ b hb₂ (Nat.le_antisymm hba hab)
  · exact sortDesc_sorted l
  · rw [List.pairwise_reverse]
    exact h.imp (by intro a b hab; exact Nat.le_of_lt hab)
  · exact (sortDesc_perm l).trans (List.reverse_perm l).symm

/-- Sorting an already ascending history leaves it unchanged. -/
theorem sortAsc_of_ascending (l : List HistoryItem)
    (h : l.Pairwise (fun a b => a.createdAt ≤ b.createdAt)) :
    sortByCreatedAsc l = l :=
  List.Sorted.insertionSort_eq h

/-- The item returned by `addToHistory`. -/
theorem addToHistory_item (s : MemState) (item : NewHistoryItem) (now : Nat) :
    (addToHistory s item now).2 =
      ⟨s.nextId, item.originalText, item.paraphrasedText, item.mode,
        item.wordCount, now⟩ := rfl

/-- The history field produced by `addToHistory`. -/
theorem addToHistory_history (s : MemState) (item : NewHistoryItem) (now : Nat) :
    (addToHistory s item now).1.history =
      (if (s.history ++ [(addToHistory s item now).2]).length > 50 then
        match (sortByCreatedAsc (s.history ++ [(addToHistory s item now).2])).head? with
        | some oldest =>
          (s.history ++ [(addToHistory s item now).2]).filter (fun x => x.id != oldest.id)
        | none => s.history ++ [(addToHistory s item now).2]
      else s.history ++ [(addToHistory s item now).2]) := rfl

theorem addToHistory_nextId (s : MemState) (item : NewHistoryItem) (now : Nat) :
    (addToHistory s item now).1.nextId = s.nextId + 1 := rfl

theorem addToHistory_usage (s : MemState) (item : NewHistoryItem) (now : Nat) :
    (addToHistory s item now).1.wordsUsedToday = s.wordsUsedToday ∧
    (addToHistory s item now).1.lastResetDate = s.lastResetDate := ⟨rfl, rfl⟩

/-- `addToHistory` keeps the history within the 50-entry bound. -/
theorem addToHistory_length_le (s : MemState) (item : NewHistoryItem) (now : Nat)
    (h : s.history.length ≤ 50) : (addToHistory s item now).1.history.length ≤ 50 := by
  rw [addToHistory_history]
  by_cases hc : (s.history ++ [(addToHistory s item now).2]).length > 50
  · rw [if_pos hc]
    cases hh : (sortByCreatedAsc (s.history ++ [(addToHistory s item now).2])).head? with
    | none =>
      rw [List.head?_eq_none_iff] at hh
      have hperm := sortAsc_perm (s.history ++ [(addToHistory s item now).2])
      rw [hh] at hperm
      have := hperm.symm.eq_nil
      simp at this
    | some oldest =>
      have hmem : oldest ∈ s.history ++ [(addToHistory s item now).2] :=
        (sortAsc_perm _).subset (List.mem_of_mem_head? (by simp [hh]))
      have hlt := length_filter_lt (fun x => x.id != oldest.id) _ oldest hmem (by simp)
      simp only [List.length_append, List.length_cons, List.length_nil] at hlt hc ⊢
      omega
  · rw [if_neg hc]
    simp only [List.length_append, List.length_cons, List.length_nil] at hc ⊢
    omega

/-- Every reachable store keeps at most 50 history entries. -/
theorem runOps_length_le (ops : List HOp) :
    ∀ s : MemState, s.history.length ≤ 50 → (runOps s ops).history.length ≤ 50 := by
  induction ops with
  | nil => intro s h; exact h
  | cons op rest ih =>
    intro s h
    rw [runOps, List.foldl_cons]
    apply ih
    cases op with
    | record item now => exact addToHistory_length_le s item now h
    | del id => exact le_trans (List.length_filter_le _ _) h
    | clear => exact Nat.zero_le 50

/-! ### Characterising record-only traces -/

/-- The items a sequence of `recordHistory` payloads creates, given the
starting value of the id counter. -/
def mkItemsFrom (k : Nat) : List (NewHistoryItem × Nat) → List HistoryItem
  | [] => []
  | (a, t) :: rest =>
    ⟨k, a.originalText, a.paraphrasedText, a.mode, a.wordCount, t⟩ :: mkItemsFrom (k + 1) rest

def mkItems (args : List (NewHistoryItem × Nat)) : List HistoryItem :=
  mkItemsFrom 0 args

theorem mkItemsFrom_length (k : Nat) (args : List (NewHistoryItem × Nat)) :
    (mkItemsFrom k args).length = args.length := by
  induction args generalizing k with
  | nil => rfl
  | cons a rest ih =>
    obtain ⟨a, t⟩ := a
    simp [mkItemsFrom, ih]

theorem mkItemsFrom_append (k : Nat) (xs : List (NewHistoryItem × Nat))
    (y : NewHistoryItem × Nat) :
    mkItemsFrom k (xs ++ [y]) =
      mkItemsFrom k xs ++
        [⟨k + xs.length, y.1.originalText, y.1.paraphrasedText, y.1.mode,
          y.1.wordCount, y.2⟩] := by
  induction xs generalizing k with
  | nil =>
    obtain ⟨a, t⟩ := y
    simp [mkItemsFrom]
  | cons x rest ih =>
    obtain ⟨a, t⟩ := x
    have step : mkItemsFrom k (((a, t) :: rest) ++ [y])
        = ⟨k, a.originalText, a.paraphrasedText, a.mode, a.wordCount, t⟩ ::
          mkItemsFrom (k + 1) (rest ++ [y]) := rfl
    rw [step, ih (k + 1)]
    have harith : k + 1 + rest.length = k + (rest.length + 1) := by omega
    simp [mkItemsFrom, harith]

theorem mkItemsFrom_createdAt (k : Nat) (args : List (NewHistoryItem × Nat)) :
    (mkItemsFrom k args).map HistoryItem.createdAt = args.map Prod.snd := by
  induction args generalizing k with
  | nil => rfl
  | cons a rest ih =>
    obtain ⟨a, t⟩ := a
    simp [mkItemsFrom, ih]

theorem mkItemsFrom_ids (k : Nat) (args : List (NewHistoryItem × Nat)) :
    (mkItemsFrom k args).map HistoryItem.id = List.range' k args.length := by
  induction args generalizing k with
  | nil => rfl
  | cons a rest ih =>
    obtain ⟨a, t⟩ := a
    simp [mkItemsFrom, ih, List.range'_succ]

theorem mkItems_length (args : List (NewHistoryItem × Nat)) :
    (mkItems args).length = args.length := mkItemsFrom_length 0 args

theorem mkItems_createdAt (args : List (NewHistoryItem × Nat)) :
    (mkItems args).map HistoryItem.createdAt = args.map Prod.snd :=
  mkItemsFrom_createdAt 0 args

theorem mkItems_ids (args : List (NewHistoryItem × Nat)) :
    (mkItems args).map HistoryItem.id = List.range' 0 args.length :=
  mkItemsFrom_ids 0 args

/-- State reached from a fresh store by a record-only trace with strictly
increasing timestamps: the history holds the last 50 created items in
creation order, and the id counter equals the number of records. -/
theorem runAdds_state (d : Nat) (args : List (NewHistoryItem × Nat))
    (hinc : (args.map Prod.snd).Pairwise (· < ·)) :
    (runOps (initState d) (args.map (fun a => HOp.record a.1 a.2))).history
        = (mkItems args).drop (args.length - 50) ∧
    (runOps (initState d) (args.map (fun a => HOp.record a.1 a.2))).nextId
        = args.length := by
  induction args using List.reverseRecOn with
  | nil => exact ⟨rfl, rfl⟩
  | append_singleton xs x ih =>
    have hinc₂ : (xs.map Prod.snd).Pairwise (· < ·) := by
      rw [List.map_append] at hinc
      exact hinc.sublist (List.sublist_append_left _ _)
    obtain ⟨ih1, ih2⟩ := ih hinc₂
    have hlast : ∀ p ∈ xs.map Prod.snd, p < x.2 := by
      rw [List.map_append] at hinc
      have h := (List.pairwise_append.mp hinc).2.2
      intro p hp
      exact h p hp x.2 (by simp)
    have hmkAsc : (mkItems xs).Pairwise (fun a b => a.createdAt < b.createdAt) := by
      have h := hinc₂
      rw [← mkItems_createdAt xs, List.pairwise_map] at h
      exact h
    rw [List.map_append, runOps, List.foldl_append]
    have hfold :
        List.foldl applyOp (initState d) (xs.map (fun a => HOp.record a.1 a.2))
          = runOps (initState d) (xs.map (fun a => HOp.record a.1 a.2)) := rfl
    rw [hfold]
    set S := runOps (initState d) (xs.map (fun a => HOp.record a.1 a.2)) with hS
    simp only [List.map_cons, List.map_nil, List.foldl_cons, List.foldl_nil, applyOp]
    -- the new item
    have hnew : (addToHistory S x.1 x.2).2 =
        ⟨xs.length, x.1.originalText, x.1.paraphrasedText, x.1.mode, x.1.wordCount, x.2⟩ := by
      rw [addToHistory_item, ih2]
    have hmk : mkItems (xs ++ [x]) = mkItems xs ++ [(addToHistory S x.1 x.2).2] := by
      rw [mkItems, mkItemsFrom_append, hnew]
      simp [mkItems]
    have hlen : (mkItems xs).length = xs.length := mkItemsFrom_length 0 xs
    have hdroplen : ((mkItems xs).drop (xs.length - 50)).length
        = xs.length - (xs.length - 50) := by
      rw [List.length_drop, hlen]
    -- creation times in the current history are all below x.2
    have hbelow : ∀ h ∈ (mkItems xs).drop (xs.length - 50), h.createdAt < x.2 := by
      intro h hmem
      have hmem₂ : h ∈ mkItems xs := List.mem_of_mem_drop hmem
      have hmm : h.createdAt ∈ (mkItems xs).map HistoryItem.createdAt :=
        List.mem_map_of_mem _ hmem₂
      rw [mkItems_createdAt xs] at hmm
      exact hlast _ hmm
    have hAsc₂ : ((mkItems xs).drop (xs.length - 50) ++ [(addToHistory S x.1 x.2).2]).Pairwise
        (fun a b => a.createdAt < b.createdAt) := by
      rw [List.pairwise_append]
      refine ⟨hmkAsc.drop, List.pairwise_singleton _ _, ?_⟩
      intro a ha b hb
      rw [List.mem_singleton] at hb
      subst hb
      rw [hnew]
      exact hbelow a ha
    constructor
    · rw [addToHistory_history, ih1]
      by_cases hc : xs.length < 50
      · have hsmall :
            ¬ ((mkItems xs).drop (xs.length - 50) ++ [(addToHistory S x.1 x.2).2]).length > 50 := by
          simp only [List.length_append, List.length_cons, List.length_nil, hdroplen]
          omega
        rw [if_neg hsmall, hmk]
        have h0 : xs.length - 50 = 0 := by omega
        have h1 : (xs ++ [x]).length - 50 = 0 := by simp [List.length_append]; omega
        rw [h0, h1, List.drop_zero, List.drop_zero]
      · push_neg at hc
        have hbig :
            ((mkItems xs).drop (xs.length - 50) ++ [(addToHistory S x.1 x.2).2]).length > 50 := by
          simp only [List.length_append, List.length_cons, List.length_nil, hdroplen]
          omega
        rw [if_pos hbig]
        -- the appended history is already ascending, so the victim is its head
        have hsorted := sortAsc_of_ascending _ (hAsc₂.imp (by intro a b hab; omega))
        rw [hsorted]
        -- expose the head of the 50-entry window
        have hwne : (mkItems xs).drop (xs.length - 50) ≠ [] := by
          intro hnil
          have := congrArg List.length hnil
          rw [hdroplen] at this
          simp at this
          omega
        cases hw : (mkItems xs).drop (xs.length - 50) with
        | nil => exact absurd hw hwne
        | cons h0 rest =>
          simp only [List.cons_append, List.head?_cons]
          -- ids are pairwise distinct in the window plus the new item
          have hids : ((h0 :: rest ++ [(addToHistory S x.1 x.2).2]).map HistoryItem.id).Nodup := by
            have hsub : List.Sublist ((h0 :: rest) ++ [(addToHistory S x.1 x.2).2])
                (mkItems xs ++ [(addToHistory S x.1 x.2).2]) := by
              rw [← hw]
              exact (List.drop_sublist _ _).append_right _
            have hnodup : ((mkItems xs ++ [(addToHistory S x.1 x.2).2]).map HistoryItem.id).Nodup := by
              rw [← hmk, mkItems_ids]
              exact List.nodup_range' _ _
            exact hnodup.sublist (hsub.map HistoryItem.id)
          -- deleting the head id removes exactly the head
          have hfilter : ((h0 :: (rest ++ [(addToHistory S x.1 x.2).2])).filter
              (fun y => y.id != h0.id)) = rest ++ [(addToHistory S x.1 x.2).2] := by
            rw [List.filter_cons_of_neg (by simp), List.filter_eq_self]
            intro y hy
            simp only [bne_iff_ne, ne_eq]
            intro he
            rw [List.cons_append, List.map_cons, List.nodup_cons] at hids
            exact hids.1 (by rw [← he]; exact List.mem_map_of_mem _ hy)
          rw [hfilter, hmk]
          -- drop one more from the window
          have htail : rest = (mkItems xs).drop (xs.length - 49) := by
            have := congrArg List.tail hw
            rw [List.tail_drop] at this
            have harith : xs.length - 50 + 1 = xs.length - 49 := by omega
            rw [harith] at this
            exact this.symm
          rw [htail]
          have harith₂ : (xs ++ [x]).length - 50 = xs.length - 49 := by
            simp only [List.length_append, List.length_cons, List.length_nil]
            omega
          rw [harith₂, List.drop_append_of_le_length (by rw [hlen]; omega)]
    · rw [addToHistory_nextId, ih2]
      simp

/-- What the frozen claim says `listHistory` returns: the at-most-50 most
recently created of the recorded items not yet deleted, newest first. -/
def specListHistory (recorded : List HistoryItem) (deletedIds : List Nat) :
    List HistoryItem :=
  (sortByCreatedDesc (recorded.filter (fun h => !(deletedIds.contains h.id)))).take 50

/-- A trace of 51 records (timestamps 1..51) followed by one delete of the
newest id. -/
def cexArgs : List (NewHistoryItem × Nat) :=
  (List.range 51).map (fun k => (⟨"", "", "", 0⟩, k + 1))

def cexOps : List HOp :=
  cexArgs.map (fun a => HOp.record a.1 a.2) ++ [HOp.del 50]

set_option maxRecDepth 4000 in
/-- C2 counterexample: after 51 records (timestamps 1..51, so ids 0..50,
with id 0 evicted at the 51st insertion) and one `deleteHistoryItem 50`,
`getHistory` returns 49 items, while the 50 most recently created recorded
items that were never passed to `deleteHistoryItem` (ids 0..49) number 50 —
so the returned items are not exactly the most recent non-deleted ones. -/
theorem claim_C2_counterexample :
    getHistory (runOps (initState 0) cexOps) ≠ specListHistory (mkItems cexArgs) [50] ∧
    (getHistory (runOps (initState 0) cexOps)).length = 49 ∧
    (specListHistory (mkItems cexArgs) [50]).length = 50 := by
  refine ⟨by decide, by decide, by decide⟩

/-! ### `countWords` computes the number of whitespace-separated words -/

/-- Splitting an all-whitespace remainder yields nothing beyond the pending
token. -/
theorem allWs_specWordsAux (l : List Char) (hl : ∀ c ∈ l, isWs c = true) :
    ∀ cur, specWordsAux l cur = if cur = [] then [] else [String.mk cur.reverse] := by
  induction l with
  | nil => intro cur; rfl
  | cons c rest ih =>
    intro cur
    have hc : isWs c = true := hl c (by simp)
    have hrest : ∀ x ∈ rest, isWs x = true := fun x hx => hl x (by simp [hx])
    rw [specWordsAux_cons, if_pos hc]
    by_cases hcur : cur = []
    · rw [if_pos hcur, ih hrest [], if_pos rfl, if_pos hcur]
    · rw [if_neg hcur, ih hrest [], if_pos rfl, if_neg hcur]

/-- Leading whitespace does not affect the spec-side split. -/
theorem specWordsAux_dropWhile (l : List Char) :
    specWordsAux (l.dropWhile isWs) [] = specWordsAux l [] := by
  induction l with
  | nil => rfl
  | cons c rest ih =>
    by_cases hc : isWs c = true
    · rw [List.dropWhile_cons_of_pos hc, ih, specWordsAux_cons, if_pos hc, if_pos rfl]
    · rw [List.dropWhile_cons_of_neg (by simp [hc])]

/-- Trailing whitespace does not affect the spec-side split. -/
theorem specWordsAux_append_allWs (l : List Char) (w : List Char)
    (hw : ∀ c ∈ w, isWs c = true) :
    ∀ cur, specWordsAux (l ++ w) cur = specWordsAux l cur := by
  induction l with
  | nil =>
    intro cur
    rw [List.nil_append, allWs_specWordsAux w hw cur]
    rfl
  | cons c rest ih =>
    intro cur
    rw [List.cons_append, specWordsAux_cons, specWordsAux_cons]
    by_cases hc : isWs c = true
    · rw [if_pos hc, if_pos hc]
      by_cases hcur : cur = []
      · rw [if_pos hcur, if_pos hcur, ih]
      · rw [if_neg hcur, if_neg hcur, ih]
    · rw [if_neg hc, if_neg hc, ih]

/-- `dropWhile isWs l` is the trimmed list followed by the trailing
whitespace run. -/
theorem dropWs_decomp (l : List Char) :
    l.dropWhile isWs =
      trimList l ++ ((l.dropWhile isWs).reverse.takeWhile isWs).reverse := by
  calc l.dropWhile isWs = ((l.dropWhile isWs).reverse).reverse :=
        (List.reverse_reverse _).symm
    _ = ((l.dropWhile isWs).reverse.takeWhile isWs ++
          (l.dropWhile isWs).reverse.dropWhile isWs).reverse := by
        rw [List.takeWhile_append_dropWhile]
    _ = ((l.dropWhile isWs).reverse.dropWhile isWs).reverse ++
          ((l.dropWhile isWs).reverse.takeWhile isWs).reverse := by
        rw [List.reverse_append]
    _ = trimList l ++ ((l.dropWhile isWs).reverse.takeWhile isWs).reverse := rfl

/-- Trimming does not change the whitespace-separated words. -/
theorem specWords_trim (t : String) : specWords (jsTrim t) = specWords t := by
  show specWordsAux (trimList t.data) [] = specWordsAux t.data []
  conv_rhs => rw [← specWordsAux_dropWhile t.data]
  rw [dropWs_decomp t.data,
    specWordsAux_append_allWs (trimList t.data) _
      (fun c hc => List.mem_takeWhile_imp (List.mem_reverse.mp hc)) []]

theorem head?_dropWhile_not_ws (l : List Char) :
    ∀ c, ((l.dropWhile isWs).head? = some c) → isWs c = false := by
  induction l with
  | nil => intro c hc; cases hc
  | cons x rest ih =>
    intro c hc
    by_cases hx : isWs x = true
    · rw [List.dropWhile_cons_of_pos hx] at hc
      exact ih c hc
    · rw [List.dropWhile_cons_of_neg (by simp [hx])] at hc
      simp only [List.head?_cons, Option.some.injEq] at hc
      subst hc
      simpa using hx

theorem trimList_head_not_ws (l : List Char) :
    ∀ c, (trimList l).head? = some c → isWs c = false := by
  intro c hc
  have hd : (l.dropWhile isWs).head? = some c := by
    rw [dropWs_decomp l, List.head?_append, hc]
    rfl
  exact head?_dropWhile_not_ws l c hd

theorem trimList_getLast_not_ws (l : List Char) :
    ∀ c, (trimList l).getLast? = some c → isWs c = false := by
  intro c hc
  rw [trimList, List.getLast?_reverse] at hc
  exact head?_dropWhile_not_ws ((l.dropWhile isWs).reverse) c hc

/-- A non-empty trimmed string has no edge whitespace. -/
theorem noEdgeWs_jsTrim (t : String) (h : jsTrim t ≠ "") :
    noEdgeWs (jsTrim t) = true := by
  have hdata : (jsTrim t).data = trimList t.data := rfl
  have hne : trimList t.data ≠ [] := by
    intro h0
    exact h (String.ext (by simp [hdata, h0]))
  rw [noEdgeWs, hdata]
  simp only [Bool.and_eq_true]
  refine ⟨⟨by simpa using hne, ?_⟩, ?_⟩
  · cases hh : (trimList t.data).head? with
    | none => exact absurd (List.head?_eq_none_iff.mp hh) hne
    | some c => simpa using trimList_head_not_ws t.data c hh
  · cases hh : (trimList t.data).getLast? with
    | none => exact absurd (List.getLast?_eq_none_iff.mp hh) hne
    | some c => simpa using trimList_getLast_not_ws t.data c hh

/-- `countWords` returns the number of whitespace-separated words. -/
theorem countWords_eq_specWords (t : String) :
    countWords t = (specWords t).length := by
  by_cases h : jsTrim t = ""
  · rw [countWords, if_pos h, ← specWords_trim t, h]
    rfl
  · rw [countWords, if_neg h, jsSplitWs_eq_specWords (noEdgeWs_jsTrim t h),
      specWords_trim t]

/-! ### The paraphrase route (`server/routes.ts`) -/

theorem checkAndResetDaily_idem (s : MemState) (d : Nat) :
    checkAndResetDaily (checkAndResetDaily s d) d = checkAndResetDaily s d := by
  by_cases h : d ≠ s.lastResetDate <;> simp [checkAndResetDaily, h]

/-- The quota/accounting/history steps of `POST /api/paraphrase`: check the
limit using current stats, reject with 429 when it would be exceeded,
otherwise charge `countWords(text)` words and record the history item.  The
externally produced paraphrased text is a parameter. -/
def paraphraseRoute (s : MemState) (text paraphrased mode : String)
    (today now : Nat) : MemState × Option HistoryItem :=
  let wordCount := countWords text
  let g := getUsageStats s today
  if g.2.wordsUsedToday + (wordCount : Int) > g.2.dailyLimit then (g.1, none)
  else
    let a := addWordsUsed g.1 today (wordCount : Int)
    let r := addToHistory a.1 ⟨text, paraphrased, mode, wordCount⟩ now
    (r.1, some r.2)

/-! ### Usage-counter lemmas -/

theorem checkAndResetDaily_lastResetDate (s : MemState) (d : Nat) :
    (checkAndResetDaily s d).lastResetDate = d := by
  by_cases h : d = s.lastResetDate
  · simp [checkAndResetDaily, h]
  · simp [checkAndResetDaily, h]

theorem checkAndResetDaily_of_last (s : MemState) (d : Nat)
    (h : s.lastResetDate = d) : checkAndResetDaily s d = s := by
  simp [checkAndResetDaily, h]

theorem addWordsUsed_fst (s : MemState) (d : Nat) (c : Int) :
    (addWordsUsed s d c).1 =
      { checkAndResetDaily s d with
          wordsUsedToday := (checkAndResetDaily s d).wordsUsedToday + c } := by
  simp only [addWordsUsed, getUsageStats]
  exact checkAndResetDaily_of_last _ d (by simp [checkAndResetDaily_lastResetDate])

theorem addWordsUsed_stats (s : MemState) (d : Nat) (c : Int) :
    (addWordsUsed s d c).2.wordsUsedToday
        = (checkAndResetDaily s d).wordsUsedToday + c ∧
    (addWordsUsed s d c).2.dailyLimit = DAILY_WORD_LIMIT := by
  simp only [addWordsUsed, getUsageStats]
  rw [checkAndResetDaily_of_last _ d (by simp [checkAndResetDaily_lastResetDate])]
  refine ⟨rfl, ?_⟩
  trivial

/-! ### Claims C3, C4, C6, C7, C8, C9 -/

/-- C3: `getUsageStats` and `addWordsUsed` perform the lazy date check
before reading or adding (the check factors through `checkAndResetDaily` and
is idempotent), the reported counter is monotone within one calendar day for
non-negative counts, and on the first access after the date changes the
counter restarts from 0, so the next `addWordsUsed(c)` reports `c`. -/
theorem claim_C3 :
    (∀ (s : MemState) (d : Nat) (c : Int), 0 ≤ c →
      (getUsageStats s d).2.wordsUsedToday ≤ (addWordsUsed s d c).2.wordsUsedToday) ∧
    (∀ (s : MemState) (d : Nat) (c₁ c₂ : Int), 0 ≤ c₂ →
      (addWordsUsed s d c₁).2.wordsUsedToday ≤
        (addWordsUsed (addWordsUsed s d c₁).1 d c₂).2.wordsUsedToday) ∧
    (∀ (s : MemState) (d : Nat), d ≠ s.lastResetDate →
      (getUsageStats s d).2.wordsUsedToday = 0) ∧
    (∀ (s : MemState) (d : Nat) (c : Int), d ≠ s.lastResetDate →
      (addWordsUsed s d c).2.wordsUsedToday = c) ∧
    (∀ (s : MemState) (d : Nat),
      getUsageStats s d = getUsageStats (checkAndResetDaily s d) d) ∧
    (∀ (s : MemState) (d : Nat) (c : Int),
      addWordsUsed s d c = addWordsUsed (checkAndResetDaily s d) d c) := by
  refine ⟨?_, ?_, ?_, ?_, ?_, ?_⟩
  · intro s d c hc
    rw [(addWordsUsed_stats s d c).1]
    exact le_add_of_nonneg_right hc
  · intro s d c₁ c₂ hc
    have h1 := (addWordsUsed_stats s d c₁).1
    have hlast : ((addWordsUsed s d c₁).1).lastResetDate = d := by
      rw [addWordsUsed_fst s d c₁]
      simp [checkAndResetDaily_lastResetDate]
    have h2 := (addWordsUsed_stats (addWordsUsed s d c₁).1 d c₂).1
    rw [checkAndResetDaily_of_last _ d hlast] at h2
    have hw : ((addWordsUsed s d c₁).1).wordsUsedToday
        = (checkAndResetDaily s d).wordsUsedToday + c₁ := by
      rw [addWordsUsed_fst s d c₁]
    rw [h1, h2, hw]
    exact le_add_of_nonneg_right hc
  · intro s d h
    simp [getUsageStats, checkAndResetDaily, h]
  · intro s d c h
    rw [(addWordsUsed_stats s d c).1]
    simp [checkAndResetDaily, h]
  · intro s d
    simp [getUsageStats, checkAndResetDaily_idem]
  · intro s d c
    simp [addWordsUsed, checkAndResetDaily_idem]

theorem claim_C3_witness :
    (getUsageStats (initState 0) 0).2.wordsUsedToday ≤
      (addWordsUsed (initState 0) 0 7).2.wordsUsedToday ∧
    (addWordsUsed ⟨[], 0, 9, 4⟩ 5 7).2.wordsUsedToday = 7 :=
  ⟨claim_C3.1 (initState 0) 0 7 (by decide),
   claim_C3.2.2.2.1 ⟨[], 0, 9, 4⟩ 5 7 (by decide)⟩

/-- C4: `calculateChangePercentage` equals the specified formula — the summed
`split(/\s+/)` word counts of the changed segments over the word count of the
modified text, times 100, rounded, and 0 when the modified text has no
words — with the concrete examples of the claim. -/
theorem claim_C4 :
    (∀ o m : String, calculateChangePercentage o m = specChangePct o m) ∧
    calculateChangePercentage "a b c d" "a b c d" = 0 ∧
    calculateChangePercentage "a b c d" "w x y z" = 100 := by
  refine ⟨calculateChangePercentage_eq_spec, ?_, ?_⟩ <;>
    (rw [calculateChangePercentage_eval _ _ (by decide) (by decide)]; decide)

/-- C6: `addWordsUsed(count)` rolls the counter over if the date changed,
then adds `count` unconditionally — no bound is applied, so the stored
counter can exceed the daily limit of 5000 without error. -/
theorem claim_C6 :
    (∀ (s : MemState) (d : Nat) (c : Int), 0 ≤ c →
      (addWordsUsed s d c).2.wordsUsedToday
          = (checkAndResetDaily s d).wordsUsedToday + c ∧
      (addWordsUsed s d c).2.dailyLimit = 5000) ∧
    (addWordsUsed ⟨[], 0, 4999, 0⟩ 0 600).2.wordsUsedToday = 5599 ∧
    DAILY_WORD_LIMIT < (addWordsUsed ⟨[], 0, 4999, 0⟩ 0 600).2.wordsUsedToday := by
  refine ⟨fun s d c _ => ⟨(addWordsUsed_stats s d c).1, (addWordsUsed_stats s d c).2⟩, ?_, ?_⟩
  · rw [(addWordsUsed_stats ⟨[], 0, 4999, 0⟩ 0 600).1]
    decide
  · rw [(addWordsUsed_stats ⟨[], 0, 4999, 0⟩ 0 600).1]
    decide

theorem claim_C6_witness :
    (addWordsUsed (initState 2) 2 41).2.wordsUsedToday
        = (checkAndResetDaily (initState 2) 2).wordsUsedToday + 41 ∧
    (addWordsUsed (initState 2) 2 41).2.dailyLimit = 5000 :=
  claim_C6.1 (initState 2) 2 41 (by decide)

/-- C7: when either argument is the empty string, `computeTextDiff` returns
the single segment holding the whole modified text, typed `unchanged`. -/
theorem claim_C7 :
    (∀ o m : String, o = "" ∨ m = "" →
      computeTextDiff o m = [⟨m, SegType.unchanged⟩]) ∧
    computeTextDiff "" "hello world" = [⟨"hello world", SegType.unchanged⟩] ∧
    computeTextDiff "x" "" = [⟨"", SegType.unchanged⟩] :=
  ⟨fun o m h => by rw [computeTextDiff, if_pos h], by decide, by decide⟩

theorem claim_C7_witness :
    computeTextDiff "" "abc def" = [⟨"abc def", SegType.unchanged⟩] :=
  claim_C7.1 "" "abc def" (Or.inl rfl)

/-- C8: `deleteHistoryItem(id)` returns `true` exactly when an entry with
that id is present, removes exactly the entries with that id leaving the
rest and the usage counter untouched, and returns `false` on a repeated or
never-recorded id. -/
theorem claim_C8 :
    ∀ (s : MemState) (id : Nat),
      ((deleteHistoryItem s id).2 = true ↔ ∃ h ∈ s.history, h.id = id) ∧
      (∀ h, h ∈ (deleteHistoryItem s id).1.history ↔ h ∈ s.history ∧ h.id ≠ id) ∧
      (deleteHistoryItem s id).1.wordsUsedToday = s.wordsUsedToday ∧
      (deleteHistoryItem s id).1.lastResetDate = s.lastResetDate ∧
      (deleteHistoryItem (deleteHistoryItem s id).1 id).2 = false := by
  intro s id
  refine ⟨?_, ?_, rfl, rfl, ?_⟩
  · simp [deleteHistoryItem, List.any_eq_true]
  · intro h
    simp [deleteHistoryItem, List.mem_filter, bne_iff_ne]
  · simp only [deleteHistoryItem, List.any_eq_true]
    rw [Bool.eq_false_iff]
    intro hcon
    simp only [List.any_eq_true, List.mem_filter, bne_iff_ne, beq_iff_eq] at hcon
    obtain ⟨x, ⟨_, hne⟩, he⟩ := hcon
    exact hne he

/-- C9: the change percentage exceeds 100 on some non-empty inputs: with
original `"x"` and modified `"a "`, the trailing empty split token joins the
changed segment (`"a "`, counted as 2 words by `split(/\s+/)`) while the
total uses the trimmed text (1 word), giving round((2/1)·100) = 200. -/
theorem claim_C9 :
    "x" ≠ "" ∧ "a " ≠ "" ∧
    calculateChangePercentage "x" "a " = 200 ∧
    100 < calculateChangePercentage "x" "a " ∧
    computeTextDiff "x" "a " = [⟨"a ", SegType.changed⟩] ∧
    (jsSplitWs "a ").length = 2 ∧ countWords "a " = 1 := by
  have h200 : calculateChangePercentage "x" "a " = 200 := by
    rw [calculateChangePercentage_eval _ _ (by decide) (by decide)]
    decide
  refine ⟨?_, ?_, h200, ?_, ?_, ?_, ?_⟩
  · decide
  · decide
  · rw [h200]
    decide
  · decide
  · decide
  · decide

/-! ### Claims C1, C2, C10 -/

/-- C1 (amended): for non-empty inputs that carry no leading or trailing
whitespace, `computeTextDiff` behaves exactly as described — split both
strings into whitespace-separated words, classify each modified word as
`unchanged` precisely when the five-word window at the forward-only cursor
holds a case-insensitive match (advancing past the first match), and join
runs of equal classification with single spaces — and the claim's concrete
example holds. -/
theorem claim_C1_amended :
    (∀ o m : String, noEdgeWs o = true → noEdgeWs m = true →
      computeTextDiff o m = specComputeTextDiff o m) ∧
    computeTextDiff "The cat sat on mat" "The dog sat on mat" =
      [⟨"The", SegType.unchanged⟩, ⟨"dog", SegType.changed⟩,
       ⟨"sat on mat", SegType.unchanged⟩] :=
  ⟨fun _ _ ho hm => computeTextDiff_eq_spec ho hm, by decide⟩

/-- C1 counterexample: with the non-empty inputs original `"a "` and
modified `" a"`, the code classifies `a` as changed (the modified text's
leading empty split token consumes the original's trailing empty token and
moves the cursor past `a`), while the claimed procedure classifies `a` as
unchanged. -/
theorem claim_C1_counterexample :
    computeTextDiff "a " " a" ≠ specComputeTextDiff "a " " a" ∧
    computeTextDiff "a " " a" = [⟨"a", SegType.changed⟩] ∧
    specComputeTextDiff "a " " a" = [⟨"a", SegType.unchanged⟩] :=
  ⟨by decide, by decide, by decide⟩

theorem claim_C1_witness :
    computeTextDiff "The cat sat on mat" "The dog sat on mat" =
      specComputeTextDiff "The cat sat on mat" "The dog sat on mat" :=
  claim_C1_amended.1 "The cat sat on mat" "The dog sat on mat" (by decide) (by decide)

/-- C2 (amended): over every sequence of record/delete/clear operations,
`listHistory` returns at most 50 items, newest-first by `createdAt` (it is a
pure function of the store state by construction); and over record-only
sequences with strictly increasing timestamps it returns exactly the at
most 50 most recently created items, newest first. -/
theorem claim_C2_amended :
    (∀ (d : Nat) (ops : List HOp),
      (getHistory (runOps (initState d) ops)).length ≤ 50) ∧
    (∀ (d : Nat) (ops : List HOp),
      (getHistory (runOps (initState d) ops)).Pairwise
        (fun a b => b.createdAt ≤ a.createdAt)) ∧
    (∀ (d : Nat) (args : List (NewHistoryItem × Nat)),
      (args.map Prod.snd).Pairwise (· < ·) →
      getHistory (runOps (initState d) (args.map (fun a => HOp.record a.1 a.2)))
        = ((mkItems args).drop (args.length - 50)).reverse) := by
  refine ⟨?_, ?_, ?_⟩
  · intro d ops
    rw [getHistory, (sortDesc_perm _).length_eq]
    exact runOps_length_le ops (initState d) (by simp [initState])
  · intro d ops
    exact sortDesc_sorted _
  · intro d args hinc
    obtain ⟨h1, _⟩ := runAdds_state d args hinc
    rw [getHistory, h1]
    apply sortDesc_of_ascending
    have hmk : (mkItems args).Pairwise (fun a b => a.createdAt < b.createdAt) := by
      rw [← mkItems_createdAt args, List.pairwise_map] at hinc
      exact hinc
    exact hmk.drop

theorem claim_C2_witness :
    getHistory (runOps (initState 0)
      (([(⟨"a", "b", "standard", 1⟩, 1), (⟨"c", "d", "formal", 1⟩, 2)] :
          List (NewHistoryItem × Nat)).map (fun a => HOp.record a.1 a.2)))
      = ((mkItems [(⟨"a", "b", "standard", 1⟩, 1), (⟨"c", "d", "formal", 1⟩, 2)]).drop
          (([(⟨"a", "b", "standard", 1⟩, 1), (⟨"c", "d", "formal", 1⟩, 2)] :
            List (NewHistoryItem × Nat)).length - 50)).reverse :=
  claim_C2_amended.2.2 0 _ (by decide)

/-- C10: `countWords` counts the maximal whitespace-separated words of the
trimmed text (0 for empty or all-whitespace input), and the paraphrase route
charges exactly this count against the daily quota via `addWordsUsed` and
records it as the history item's `wordCount`. -/
theorem claim_C10 :
    (∀ t : String, countWords t = (specWords t).length) ∧
    (∀ t : String, (∀ c ∈ t.data, isWs c = true) → countWords t = 0) ∧
    (∀ (s : MemState) (text para mode : String) (today now : Nat)
      (st : MemState) (hi : HistoryItem),
      paraphraseRoute s text para mode today now = (st, some hi) →
      hi.wordCount = countWords text ∧ hi.originalText = text ∧
      st.wordsUsedToday
        = (checkAndResetDaily s today).wordsUsedToday + (countWords text : Int)) := by
  refine ⟨countWords_eq_specWords, ?_, ?_⟩
  · intro t hall
    rw [countWords_eq_specWords, specWords, allWs_specWordsAux t.data hall [],
      if_pos rfl]
    rfl
  · intro s text para mode today now st hi heq
    simp only [paraphraseRoute] at heq
    by_cases hq : (getUsageStats s today).2.wordsUsedToday + (countWords text : Int) >
        (getUsageStats s today).2.dailyLimit
    · rw [if_pos hq] at heq
      simp at heq
    · rw [if_neg hq] at heq
      rw [Prod.mk.injEq] at heq
      obtain ⟨h1, h2⟩ := heq
      have h2' := Option.some.inj h2
      refine ⟨?_, ?_, ?_⟩
      · rw [← h2']
        rfl
      · rw [← h2']
        rfl
      · rw [← h1, (addToHistory_usage _ _ _).1,
          addWordsUsed_fst (getUsageStats s today).1 today (countWords text : Int)]
        show (checkAndResetDaily (checkAndResetDaily s today) today).wordsUsedToday
            + (countWords text : Int)
          = (checkAndResetDaily s today).wordsUsedToday + (countWords text : Int)
        rw [checkAndResetDaily_idem]

theorem claim_C10_witness :
    countWords "  hello   there world " = (specWords "  hello   there world ").length ∧
    countWords "   " = 0 :=
  ⟨claim_C10.1 "  hello   there world ", claim_C10.2.1 "   " (by decide)⟩

/-! ### Claim C5 -/

/-- C5: on a reachable store (at most 50 entries, unique ids below the
counter, creation times before the current clock), `addToHistory` assigns a
fresh unique id and the current timestamp and inserts; when the store was
full it removes exactly the single oldest entry by `createdAt`, and the
just-inserted item is present; the operation is a total function. -/
theorem claim_C5 :
    ∀ (s : MemState) (item : NewHistoryItem) (now : Nat),
      s.history.length ≤ 50 →
      (s.history.map HistoryItem.id).Nodup →
      (∀ h ∈ s.history, h.id < s.nextId) →
      (∀ h ∈ s.history, h.createdAt < now) →
      ((addToHistory s item now).2.id = s.nextId ∧
       (addToHistory s item now).2.createdAt = now ∧
       (∀ h ∈ s.history, h.id ≠ (addToHistory s item now).2.id) ∧
       (addToHistory s item now).2 ∈ (addToHistory s item now).1.history ∧
       (s.history.length < 50 →
         (addToHistory s item now).1.history
           = s.history ++ [(addToHistory s item now).2]) ∧
       (s.history.length = 50 →
         ∃ victim ∈ s.history,
           (∀ h ∈ s.history, victim.createdAt ≤ h.createdAt) ∧
           (addToHistory s item now).1.history
             = s.history.filter (fun x => x.id != victim.id)
               ++ [(addToHistory s item now).2] ∧
           (addToHistory s item now).1.history.length = 50)) := by
  intro s item now hlen hnd hid htime
  have hiid : (addToHistory s item now).2.id = s.nextId := rfl
  have hico : (addToHistory s item now).2.createdAt = now := rfl
  have hidne : ∀ h ∈ s.history, h.id ≠ (addToHistory s item now).2.id := by
    intro h hh he
    have := hid h hh
    rw [hiid] at he
    omega
  have hlt_case : s.history.length < 50 →
      (addToHistory s item now).1.history
        = s.history ++ [(addToHistory s item now).2] := by
    intro hlt
    rw [addToHistory_history,
      if_neg (by simp only [List.length_append, List.length_cons, List.length_nil]; omega)]
  have heq_case : s.history.length = 50 →
      ∃ victim ∈ s.history,
        (∀ h ∈ s.history, victim.createdAt ≤ h.createdAt) ∧
        (addToHistory s item now).1.history
          = s.history.filter (fun x => x.id != victim.id)
            ++ [(addToHistory s item now).2] ∧
        (addToHistory s item now).1.history.length = 50 := by
    intro h50
    have hbig : (s.history ++ [(addToHistory s item now).2]).length > 50 := by
      simp only [List.length_append, List.length_cons, List.length_nil]
      omega
    cases hh : (sortByCreatedAsc (s.history ++ [(addToHistory s item now).2])).head? with
    | none =>
      rw [List.head?_eq_none_iff] at hh
      have hperm := sortAsc_perm (s.history ++ [(addToHistory s item now).2])
      rw [hh] at hperm
      have hnil := hperm.symm.eq_nil
      simp at hnil
    | some v =>
      have hvmem : v ∈ s.history ++ [(addToHistory s item now).2] :=
        (sortAsc_perm _).subset (List.mem_of_mem_head? (by simp [hh]))
      have hmin : ∀ x ∈ s.history ++ [(addToHistory s item now).2],
          v.createdAt ≤ x.createdAt := by
        intro x hx
        have hs := sortAsc_sorted (s.history ++ [(addToHistory s item now).2])
        have hxs : x ∈ sortByCreatedAsc (s.history ++ [(addToHistory s item now).2]) :=
          (sortAsc_perm _).symm.subset hx
        cases hsl : sortByCreatedAsc (s.history ++ [(addToHistory s item now).2]) with
        | nil =>
          rw [hsl] at hh
          cases hh
        | cons y ys =>
          rw [hsl] at hh hs hxs
          simp only [List.head?_cons, Option.some.injEq] at hh
          subst hh
          rw [List.pairwise_cons] at hs
          rcases List.mem_cons.mp hxs with rfl | hxy
          · exact Nat.le_refl _
          · exact hs.1 x hxy
      have hvold : v ∈ s.history := by
        rcases List.mem_append.mp hvmem with h | h
        · exact h
        · exfalso
          rw [List.mem_singleton] at h
          have hne : s.history ≠ [] := by
            intro hnil
            rw [hnil] at h50
            simp at h50
          obtain ⟨x, hx⟩ := List.exists_mem_of_ne_nil s.history hne
          have h1 := hmin x (List.mem_append_left _ hx)
          have h2 := htime x hx
          rw [h, hico] at h1
          omega
      have hvid : (((addToHistory s item now).2).id != v.id) = true := by
        simp only [bne_iff_ne, ne_eq, hiid]
        intro he
        exact absurd (hid v hvold) (by omega)
      have hhist : (addToHistory s item now).1.history
          = s.history.filter (fun x => x.id != v.id)
            ++ [(addToHistory s item now).2] := by
        rw [addToHistory_history, if_pos hbig]
        simp only [hh]
        rw [List.filter_append]
        congr 1
        simp [hvid]
      refine ⟨v, hvold, ?_, hhist, ?_⟩
      · intro h hh2
        exact hmin h (List.mem_append_left _ hh2)
      · rw [hhist]
        simp only [List.length_append, List.length_cons, List.length_nil]
        rw [filter_ne_id_length s.history v hnd hvold, h50]
  refine ⟨hiid, hico, hidne, ?_, hlt_case, heq_case⟩
  rcases Nat.lt_or_ge s.history.length 50 with hlt | hge
  · rw [hlt_case hlt]
    exact List.mem_append_right _ (by simp)
  · have h50 : s.history.length = 50 := le_antisymm hlen hge
    obtain ⟨v, _, _, hhist, _⟩ := heq_case h50
    rw [hhist]
    exact List.mem_append_right _ (by simp)

theorem claim_C5_witness :
    ((addToHistory ⟨[⟨0, "x", "y", "standard", 1, 3⟩], 1, 0, 0⟩
        ⟨"o", "p", "casual", 2⟩ 9).2.id
      = (⟨[⟨0, "x", "y", "standard", 1, 3⟩], 1, 0, 0⟩ : MemState).nextId ∧
     (addToHistory ⟨[⟨0, "x", "y", "standard", 1, 3⟩], 1, 0, 0⟩
        ⟨"o", "p", "casual", 2⟩ 9).2.createdAt = 9 ∧
     (∀ h ∈ (⟨[⟨0, "x", "y", "standard", 1, 3⟩], 1, 0, 0⟩ : MemState).history,
       h.id ≠ (addToHistory ⟨[⟨0, "x", "y", "standard", 1, 3⟩], 1, 0, 0⟩
        ⟨"o", "p", "casual", 2⟩ 9).2.id) ∧
     (addToHistory ⟨[⟨0, "x", "y", "standard", 1, 3⟩], 1, 0, 0⟩
        ⟨"o", "p", "casual", 2⟩ 9).2 ∈
       (addToHistory ⟨[⟨0, "x", "y", "standard", 1, 3⟩], 1, 0, 0⟩
        ⟨"o", "p", "casual", 2⟩ 9).1.history ∧
     ((⟨[⟨0, "x", "y", "standard", 1, 3⟩], 1, 0, 0⟩ : MemState).history.length < 50 →
       (addToHistory ⟨[⟨0, "x", "y", "standard", 1, 3⟩], 1, 0, 0⟩
        ⟨"o", "p", "casual", 2⟩ 9).1.history
         = (⟨[⟨0, "x", "y", "standard", 1, 3⟩], 1, 0, 0⟩ : MemState).history
           ++ [(addToHistory ⟨[⟨0, "x", "y", "standard", 1, 3⟩], 1, 0, 0⟩
        ⟨"o", "p", "casual", 2⟩ 9).2]) ∧
     ((⟨[⟨0, "x", "y", "standard", 1, 3⟩], 1, 0, 0⟩ : MemState).history.length = 50 →
       ∃ victim ∈ (⟨[⟨0, "x", "y", "standard", 1, 3⟩], 1, 0, 0⟩ : MemState).history,
         (∀ h ∈ (⟨[⟨0, "x", "y", "standard", 1, 3⟩], 1, 0, 0⟩ : MemState).history,
           victim.createdAt ≤ h.createdAt) ∧
         (addToHistory ⟨[⟨0, "x", "y", "standard", 1, 3⟩], 1, 0, 0⟩
        ⟨"o", "p", "casual", 2⟩ 9).1.history
           = (⟨[⟨0, "x", "y", "standard", 1, 3⟩], 1, 0, 0⟩ : MemState).history.filter
               (fun x => x.id != victim.id)
             ++ [(addToHistory ⟨[⟨0, "x", "y", "standard", 1, 3⟩], 1, 0, 0⟩
        ⟨"o", "p", "casual", 2⟩ 9).2] ∧
         (addToHistory ⟨[⟨0, "x", "y", "standard", 1, 3⟩], 1, 0, 0⟩
        ⟨"o", "p", "casual", 2⟩ 9).1.history.length = 50)) :=
  claim_C5 ⟨[⟨0, "x", "y", "standard", 1, 3⟩], 1, 0, 0⟩ ⟨"o", "p", "casual", 2⟩ 9
    (by decide) (by decide) (by decide) (by decide)

end AIParaphraser

